import Mathlib

/-!
Verification of the hybrid search subsystem of the kgswebsite repository,
shallowly embedded from src/js/pagefind-search.js.  Strings are modelled as
lists of characters; JavaScript string methods (toLowerCase, includes,
indexOf, substring, trim, regex replace) are embedded as executable List
Char functions.  DOM manipulation is modelled as explicit state passing on a
UI-state record, and the invocation of performSearch is recorded in a log so
that the properties about when a search is issued can be stated.
-/

namespace KgsSearch

/-- Lowercasing of a JavaScript string, modelled characterwise. -/
def toLowerL (l : List Char) : List Char := l.map Char.toLower

/-- Coercion from Lean string literals to the character-list model. -/
def strL (s : String) : List Char := s.data

/-- Membership test of one character list inside another, embedding the
JavaScript String.prototype.includes method: containsSub hay needle is true
when needle occurs contiguously inside hay. -/
def containsSub : List Char → List Char → Bool
  | [], needle => needle.isEmpty
  | c :: t, needle => needle.isPrefixOf (c :: t) || containsSub t needle

/-- Substring occurrence as a proposition: needle occurs contiguously in hay. -/
def SubstringOf (needle hay : List Char) : Prop :=
  ∃ pre post, hay = pre ++ needle ++ post

/-- First index of a contiguous occurrence of needle in hay, embedding the
JavaScript String.prototype.indexOf method (none plays the role of -1). -/
def firstIndexOf : List Char → List Char → Option Nat
  | [], needle => if needle.isEmpty then some 0 else none
  | c :: t, needle =>
    if needle.isPrefixOf (c :: t) then some 0
    else (firstIndexOf t needle).map (· + 1)

/-- Record shape shared by the custom index and the normalized static-index
hits.  The presentation-only optional fields subtitle, image and address of
the source records are not inspected by any verified operation and are
omitted.  The category field is an Option so that a record with a missing
category (a JavaScript undefined, which is falsy) is representable, as is an
empty-string category. -/
structure SearchRecord where
  title : List Char
  url : String
  content : List Char
  type : String
  category : Option String
  excerpt : Option (List Char)
deriving DecidableEq, Repr

/-- Strict-equality comparison between the category field of a record and a
category filter string, embedding the JavaScript expression
item.category === category (undefined === c is false for a string c). -/
def catEq (c : Option String) (filterCat : String) : Bool :=
  match c with
  | none => false
  | some s => s == filterCat

/-- Query-match test of searchContent: the lowercased query is contained in
the lowercased content or in the lowercased title. -/
def matchesQuery (query : List Char) (item : SearchRecord) : Bool :=
  containsSub (toLowerL item.content) (toLowerL query)
    || containsSub (toLowerL item.title) (toLowerL query)

/-- Embedding of searchContent: filter the custom index by case-insensitive
substring containment of the query in content or title, and by strict
category equality unless the category filter is the empty string (the
JavaScript test !category || item.category === category). -/
def searchContent (searchIndex : List SearchRecord) (query : List Char)
    (category : String) : List SearchRecord :=
  searchIndex.filter (fun item =>
    matchesQuery query item && ((category == "") || catEq item.category category))

theorem isPrefixOf_iff_exists (l m : List Char) :
    l.isPrefixOf m = true ↔ ∃ t, m = l ++ t := by
  induction l generalizing m with
  | nil =>
    simp [List.isPrefixOf]
  | cons a as ih =>
    cases m with
    | nil =>
      simp [List.isPrefixOf]
    | cons b bs =>
      simp only [List.isPrefixOf, Bool.and_eq_true, beq_iff_eq, ih, List.cons_append,
        List.cons.injEq]
      constructor
      · rintro ⟨rfl, t, rfl⟩
        exact ⟨t, rfl, rfl⟩
      · rintro ⟨t, rfl, rfl⟩
        exact ⟨rfl, t, rfl⟩

theorem containsSub_iff (hay needle : List Char) :
    containsSub hay needle = true ↔ SubstringOf needle hay := by
  induction hay with
  | nil =>
    simp only [containsSub, List.isEmpty_iff, SubstringOf]
    constructor
    · rintro rfl
      exact ⟨[], [], rfl⟩
    · rintro ⟨pre, post, h⟩
      simp only [List.nil_eq, List.append_eq_nil] at h
      exact h.1.2
  | cons c t ih =>
    simp only [containsSub, Bool.or_eq_true, isPrefixOf_iff_exists, ih, SubstringOf]
    constructor
    · rintro (⟨post, h⟩ | ⟨pre, post, rfl⟩)
      · exact ⟨[], post, by simpa using h⟩
      · exact ⟨c :: pre, post, rfl⟩
    · rintro ⟨pre, post, h⟩
      cases pre with
      | nil =>
        exact Or.inl ⟨post, by simpa using h⟩
      | cons p ps =>
        simp only [List.cons_append, List.cons.injEq] at h
        exact Or.inr ⟨ps, post, h.2⟩

/-- C3: a custom-index record is returned by searchContent with no category
filter exactly when the lowercased query occurs contiguously inside the
lowercased title or the lowercased content; matching is pure substring
containment, with no stemming, fuzzy matching, or scoring. -/
theorem c3_substring_match (searchIndex : List SearchRecord) (query : List Char)
    (r : SearchRecord) :
    r ∈ searchContent searchIndex query "" ↔
      r ∈ searchIndex ∧
        (SubstringOf (toLowerL query) (toLowerL r.title) ∨
          SubstringOf (toLowerL query) (toLowerL r.content)) := by
  simp only [searchContent, matchesQuery, List.mem_filter, Bool.and_eq_true,
    Bool.or_eq_true, containsSub_iff]
  constructor
  · rintro ⟨hm, hq, -⟩
    exact ⟨hm, hq.symm⟩
  · rintro ⟨hm, hq⟩
    exact ⟨hm, hq.symm, by simp⟩

/-- Deduplication pass of performSearch: one walk over the records carrying
the set of urls already seen (the JavaScript urlSet), keeping a record only
when its url has not been seen yet.  Walking custom results followed by
static-index results over one seen-set is embedded as one walk over the
concatenation. -/
def dedupeGo (seen : List String) : List SearchRecord → List SearchRecord
  | [] => []
  | r :: rest =>
    if r.url ∈ seen then dedupeGo seen rest
    else r :: dedupeGo (r.url :: seen) rest

/-- Merge step of performSearch: custom results are added first, then the
static-index results whose url is not already present. -/
def mergeResults (customResults pagefindResults : List SearchRecord) :
    List SearchRecord :=
  dedupeGo [] (customResults ++ pagefindResults)

/-- Embedding of performSearch up to the filteredResults value it renders:
run searchContent with the category filter, merge with the static-index
results, then filter the merged list by category when a category filter is
set.  The static-index result list is a parameter, since searchPagefind
delegates to an opaque engine. -/
def performSearch (searchIndex pagefindResults : List SearchRecord)
    (query : List Char) (category : String) : List SearchRecord :=
  let customResults := searchContent searchIndex query category
  let mergedResults := mergeResults customResults pagefindResults
  if category == "" then mergedResults
  else mergedResults.filter (fun r => catEq r.category category)

theorem mem_dedupeGo (l : List SearchRecord) (seen : List String)
    (r : SearchRecord) :
    r ∈ dedupeGo seen l ↔
      r.url ∉ seen ∧ l.find? (fun x => x.url == r.url) = some r := by
  induction l generalizing seen with
  | nil =>
    simp [dedupeGo, List.find?]
  | cons a t ih =>
    by_cases ha : a.url ∈ seen
    · rw [dedupeGo, if_pos ha, ih]
      by_cases hau : a.url = r.url
      · constructor
        · rintro ⟨hr, -⟩
          exact absurd (hau ▸ ha) hr
        · rintro ⟨hr, hf⟩
          rw [List.find?, show (a.url == r.url) = true by simpa using hau] at hf
          simp only [Option.some.injEq] at hf
          exact absurd (hau ▸ ha) (hf ▸ hr)
      · rw [List.find?, show (a.url == r.url) = false by simpa using hau]
    · rw [dedupeGo, if_neg ha]
      by_cases hau : a.url = r.url
      · rw [List.find?, show (a.url == r.url) = true by simpa using hau]
        simp only [List.mem_cons, ih, List.mem_cons, Option.some.injEq]
        constructor
        · rintro (rfl | ⟨hns, -⟩)
          · exact ⟨hau ▸ ha, rfl⟩
          · exact absurd (Or.inl hau.symm) hns
        · rintro ⟨-, rfl⟩
          exact Or.inl rfl
      · rw [List.find?, show (a.url == r.url) = false by simpa using hau]
        simp only [List.mem_cons, ih, List.mem_cons]
        constructor
        · rintro (rfl | ⟨hns, hf⟩)
          · exact absurd rfl hau
          · exact ⟨fun hr => hns (Or.inr hr), hf⟩
        · rintro ⟨hr, hf⟩
          exact Or.inr ⟨fun h => (h.elim (fun h1 => hau h1.symm) hr), hf⟩

theorem countP_dedupeGo (l : List SearchRecord) (seen : List String) (u : String) :
    (dedupeGo seen l).countP (fun r => r.url == u) =
      if u ∈ seen then 0 else if l.any (fun r => r.url == u) then 1 else 0 := by
  induction l generalizing seen with
  | nil =>
    simp [dedupeGo]
  | cons a t ih =>
    by_cases ha : a.url ∈ seen
    · rw [dedupeGo, if_pos ha, ih]
      by_cases hu : u ∈ seen
      · simp [hu]
      · have hau : (a.url == u) = false := by
          simp only [beq_eq_false_iff_ne, ne_eq]
          rintro rfl
          exact hu ha
        simp [hu, List.any_cons, hau]
    · rw [dedupeGo, if_neg ha]
      by_cases hau : a.url = u
      · have hbeq : (a.url == u) = true := by simpa using hau
        have hu : u ∉ seen := hau ▸ ha
        simp only [List.countP_cons, hbeq, if_true, ih, List.mem_cons, List.any_cons]
        simp [hau, hu]
      · have hau' : (a.url == u) = false := by simpa using hau
        rw [List.countP_cons]
        simp only [hau', if_false, ih]
        have : (u ∈ a.url :: seen) ↔ (u ∈ seen) := by
          simp only [List.mem_cons]
          constructor
          · rintro (rfl | h)
            · exact absurd rfl hau
            · exact h
          · exact Or.inr
        by_cases hu : u ∈ seen <;> simp [hu, this, List.any_cons, hau']

theorem find?_filter_append (A B : List SearchRecord) (g p : SearchRecord → Bool)
    (hg : ∀ x ∈ A, p x = true → g x = true) :
    (A.filter g ++ B).find? p = (A ++ B).find? p := by
  induction A with
  | nil => rfl
  | cons a t ih =>
    by_cases hp : p a = true
    · rw [List.filter_cons, if_pos (hg a (List.mem_cons_self a t) hp), List.cons_append,
        List.cons_append, List.find?_cons_of_pos _ hp, List.find?_cons_of_pos _ hp]
    · have ht : ∀ x ∈ t, p x = true → g x = true :=
        fun x hx => hg x (List.mem_cons_of_mem a hx)
      by_cases hga : g a = true
      · rw [List.filter_cons, if_pos hga, List.cons_append, List.cons_append,
          List.find?_cons_of_neg _ hp, List.find?_cons_of_neg _ hp, ih ht]
      · rw [List.filter_cons, if_neg hga, ih ht, List.cons_append,
          List.find?_cons_of_neg _ hp]

/-- C1: the merged output contains each url exactly once (a url present in
either source appears once, any other url zero times), and when both sources
contain a record with the same url, every merged record carrying that url is
one of the custom-index records. -/
theorem c1_merge_unique_url_custom_wins (customResults pagefindResults :
    List SearchRecord) (u : String) :
    ((mergeResults customResults pagefindResults).countP (fun r => r.url == u) =
      if (customResults ++ pagefindResults).any (fun r => r.url == u) then 1 else 0)
    ∧ ((∃ rc ∈ customResults, rc.url = u) → (∃ rp ∈ pagefindResults, rp.url = u) →
        ∀ r ∈ mergeResults customResults pagefindResults, r.url = u →
          r ∈ customResults) := by
  constructor
  · rw [mergeResults, countP_dedupeGo]
    simp
  · rintro ⟨rc, hrc, hrcu⟩ - r hr hru
    rw [mergeResults, mem_dedupeGo] at hr
    have hfind := hr.2
    rw [hru] at hfind
    have hsome : (customResults.find? (fun x => x.url == u)).isSome := by
      rw [List.find?_isSome]
      exact ⟨rc, hrc, by simpa using hrcu⟩
    rw [List.find?_append] at hfind
    rcases Option.isSome_iff_exists.mp hsome with ⟨r', hr'⟩
    rw [hr', Option.or_some] at hfind
    have hrr : r' = r := by simpa using hfind
    exact hrr ▸ List.mem_of_find?_eq_some hr'

/-- Concrete custom-index record used by witnesses, mirroring the scenario of
the specification. -/
def recA : SearchRecord :=
  { title := strL ("Jane Doe"), url := "/staff/jane",
    content := strL ("Jane Doe geologist"), type := "staff",
    category := some ("Staff Directory"), excerpt := none }

/-- Concrete static-index record with the same url as recA. -/
def recB : SearchRecord :=
  { title := strL ("Jane Doe Bio"), url := "/staff/jane",
    content := strL ("bio page about Jane"), type := "page",
    category := some ("Information"), excerpt := none }

/-- Concrete second custom-index record sharing the url of recA. -/
def recA2 : SearchRecord :=
  { title := strL ("Jane Doe Duplicate"), url := "/staff/jane",
    content := strL ("duplicate entry"), type := "staff",
    category := some ("Staff Directory"), excerpt := none }

theorem c1_witness :
    ((mergeResults [recA] [recB]).countP (fun r => r.url == "/staff/jane") = 1)
    ∧ recA ∈ ([recA] : List SearchRecord) :=
  ⟨((c1_merge_unique_url_custom_wins [recA] [recB] "/staff/jane").1).trans (by decide),
   (c1_merge_unique_url_custom_wins [recA] [recB] "/staff/jane").2
     ⟨recA, by decide, by decide⟩ ⟨recB, by decide, by decide⟩
     recA (by decide) (by decide)⟩

/-- C9: when the custom index contributes two or more records with the same
url, the merged output keeps exactly the first custom record with that url
in index order; deduplication by url applies inside one source as well. -/
theorem c9_within_source_dedup (customResults pagefindResults : List SearchRecord)
    (u : String) (h : 2 ≤ customResults.countP (fun r => r.url == u)) :
    ∃ r, customResults.find? (fun x => x.url == u) = some r ∧
      r ∈ mergeResults customResults pagefindResults ∧
      ∀ r' ∈ mergeResults customResults pagefindResults, r'.url = u → r' = r := by
  have hpos : 0 < customResults.countP (fun r => r.url == u) :=
    lt_of_lt_of_le (by norm_num) h
  rw [List.countP_pos_iff] at hpos
  have hsome : (customResults.find? (fun x => x.url == u)).isSome := by
    rw [List.find?_isSome]
    simpa using hpos
  rcases Option.isSome_iff_exists.mp hsome with ⟨r, hr⟩
  have hru : r.url = u := by simpa using List.find?_some hr
  have hfindall :
      (customResults ++ pagefindResults).find? (fun x => x.url == u) = some r := by
    rw [List.find?_append, hr, Option.or_some]
  refine ⟨r, hr, ?_, ?_⟩
  · rw [mergeResults, mem_dedupeGo]
    refine ⟨by simp, ?_⟩
    rw [hru]
    exact hfindall
  · intro r' hr' hr'u
    rw [mergeResults, mem_dedupeGo] at hr'
    have h2 := hr'.2
    rw [hr'u, hfindall] at h2
    exact (Option.some_inj.mp h2).symm

theorem c9_witness :
    (2 ≤ ([recA, recA2] : List SearchRecord).countP (fun r => r.url == "/staff/jane"))
    ∧ ∃ r, ([recA, recA2] : List SearchRecord).find? (fun x => x.url == "/staff/jane")
          = some r ∧
        r ∈ mergeResults [recA, recA2] [] ∧
        ∀ r' ∈ mergeResults [recA, recA2] [], r'.url = "/staff/jane" → r' = r :=
  ⟨by decide, c9_within_source_dedup [recA, recA2] [] "/staff/jane" (by decide)⟩

theorem catEq_eq_true_iff (o : Option String) (c : String) :
    catEq o c = true ↔ o = some c := by
  cases o <;> simp [catEq]

theorem mem_of_mem_searchContent {searchIndex : List SearchRecord}
    {query : List Char} {category : String} {r : SearchRecord}
    (h : r ∈ searchContent searchIndex query category) : r ∈ searchIndex := by
  simp only [searchContent] at h
  exact List.mem_of_mem_filter h

theorem searchContent_empty_cat (searchIndex : List SearchRecord)
    (query : List Char) :
    searchContent searchIndex query "" =
      searchIndex.filter (matchesQuery query) := by
  apply List.filter_congr
  intro x hx
  simp

theorem searchContent_with_cat (searchIndex : List SearchRecord)
    (query : List Char) (c : String) (hc : c ≠ "") :
    searchContent searchIndex query c =
      (searchIndex.filter (matchesQuery query)).filter
        (fun item => catEq item.category c) := by
  have hc' : (c == "") = false := beq_eq_false_iff_ne.mpr hc
  rw [List.filter_filter]
  apply List.filter_congr
  intro x hx
  simp [hc', Bool.and_comm]

/-- C2 counterexample: with a custom record and a static record that share a
url but carry different categories, the record retained when filtering by
the static category is the static copy, which is absent from the unfiltered
merged result set, so the union over categories of the filtered result sets
differs from the unfiltered merged result set. -/
def cexA : SearchRecord :=
  { title := strL ("Rock Report"), url := "/p",
    content := strL ("rock data"), type := "page",
    category := some ("X"), excerpt := none }

/-- Static-index half of the C2 counterexample: same url as cexA, different
category. -/
def cexB : SearchRecord :=
  { title := strL ("Rock Page"), url := "/p",
    content := strL ("rock text"), type := "page",
    category := some ("Y"), excerpt := none }

theorem c2_counterexample :
    ¬ ((∀ c, c ≠ "" →
          ∀ r ∈ performSearch [cexA] [cexB] (strL ("rock")) c,
            catEq r.category c = true)
       ∧ (∀ r, (∃ c, c ≠ "" ∧ r ∈ performSearch [cexA] [cexB] (strL ("rock")) c)
            ↔ r ∈ performSearch [cexA] [cexB] (strL ("rock")) "")) := by
  rintro ⟨-, h2⟩
  have hb : cexB ∈ performSearch [cexA] [cexB] (strL ("rock")) "" :=
    (h2 cexB).mp ⟨"Y", by decide, by decide⟩
  exact absurd hb (by decide)

/-- C2 amended: filtering by a category c yields, unconditionally, only
records whose category equals c; and provided that no url is carried by two
records of different categories across the two sources and that every
category is a nonempty string, the union over all categories of the
category-filtered result sets equals the unfiltered merged result set. -/
theorem c2_category_filter_union (searchIndex pagefindResults : List SearchRecord)
    (query : List Char) :
    (∀ c, c ≠ "" →
      ∀ r ∈ performSearch searchIndex pagefindResults query c,
        catEq r.category c = true)
    ∧ ((∀ r ∈ searchIndex ++ pagefindResults,
          ∀ r' ∈ searchIndex ++ pagefindResults, r.url = r'.url →
            r.category = r'.category) →
       (∀ r ∈ searchIndex ++ pagefindResults,
          ∃ c, r.category = some c ∧ c ≠ "") →
       ∀ r, (∃ c, c ≠ "" ∧ r ∈ performSearch searchIndex pagefindResults query c)
         ↔ r ∈ performSearch searchIndex pagefindResults query "") := by
  constructor
  · intro c hc r hr
    have hc' : (c == "") = false := beq_eq_false_iff_ne.mpr hc
    simp only [performSearch, hc', Bool.false_eq_true, if_false] at hr
    exact (List.mem_filter.mp hr).2
  · intro hcat hne r
    constructor
    · rintro ⟨c, hc, hr⟩
      have hc' : (c == "") = false := beq_eq_false_iff_ne.mpr hc
      simp only [performSearch, hc', Bool.false_eq_true, if_false] at hr
      rcases List.mem_filter.mp hr with ⟨hrm, hrg⟩
      have hrc : r.category = some c := (catEq_eq_true_iff _ _).mp hrg
      rw [mergeResults, mem_dedupeGo] at hrm
      have hrmem : r ∈ searchIndex ++ pagefindResults := by
        rcases List.mem_append.mp (List.mem_of_find?_eq_some hrm.2) with h | h
        · exact List.mem_append.mpr (Or.inl (mem_of_mem_searchContent h))
        · exact List.mem_append.mpr (Or.inr h)
      have hfind := hrm.2
      rw [searchContent_with_cat searchIndex query c hc,
        find?_filter_append _ _ _ _ ?_] at hfind
      · simp only [performSearch, beq_self_eq_true, if_true,
          searchContent_empty_cat, mergeResults, mem_dedupeGo]
        exact ⟨by simp, hfind⟩
      · intro x hx hxu
        have hxmem : x ∈ searchIndex ++ pagefindResults :=
          List.mem_append.mpr (Or.inl (List.mem_of_mem_filter hx))
        have hxcat : x.category = r.category :=
          hcat x hxmem r hrmem (by simpa using hxu)
        rw [catEq_eq_true_iff, hxcat, hrc]
    · intro hr
      simp only [performSearch, beq_self_eq_true, if_true,
        searchContent_empty_cat, mergeResults, mem_dedupeGo] at hr
      have hfind := hr.2
      have hrmem : r ∈ searchIndex ++ pagefindResults := by
        rcases List.mem_append.mp (List.mem_of_find?_eq_some hfind) with h | h
        · exact List.mem_append.mpr (Or.inl (List.mem_of_mem_filter h))
        · exact List.mem_append.mpr (Or.inr h)
      rcases hne r hrmem with ⟨c, hrc, hc⟩
      have hc' : (c == "") = false := beq_eq_false_iff_ne.mpr hc
      refine ⟨c, hc, ?_⟩
      simp only [performSearch, hc', Bool.false_eq_true, if_false]
      rw [List.mem_filter]
      constructor
      · rw [mergeResults, mem_dedupeGo]
        refine ⟨by simp, ?_⟩
        rw [searchContent_with_cat searchIndex query c hc,
          find?_filter_append _ _ _ _ ?_]
        · exact hfind
        · intro x hx hxu
          have hxmem : x ∈ searchIndex ++ pagefindResults :=
            List.mem_append.mpr (Or.inl (List.mem_of_mem_filter hx))
          have hxcat : x.category = r.category :=
            hcat x hxmem r hrmem (by simpa using hxu)
          rw [catEq_eq_true_iff, hxcat, hrc]
      · rw [catEq_eq_true_iff, hrc]

/-- Additional record with a distinct url for the C2 witness. -/
def recC : SearchRecord :=
  { title := strL ("About Jane"), url := "/page/about",
    content := strL ("general page"), type := "page",
    category := some ("Information"), excerpt := none }

theorem c2_witness :
    ∃ c, c ≠ "" ∧ recA ∈ performSearch [recA] [recC] (strL ("jane")) c :=
  ((c2_category_filter_union [recA] [recC] (strL ("jane"))).2
    (by decide) (by decide) recA).mpr (by decide)

/-- Whitespace class of the JavaScript regular-expression escape for
whitespace, covering the space, tab, newline, carriage-return, vertical-tab,
form-feed and no-break-space characters. -/
def isWs (c : Char) : Bool :=
  c == ' ' || c == '\t' || c == '\n' || c == '\r' || c == '\x0b'
    || c == '\x0c' || c == '\u00A0'

/-- Fuel-indexed scanner embedding the global regex replacement of a
bracketed tag run by a single space: at an opening angle bracket with a
later closing one, the whole run up to and including the first closing
bracket is replaced by one space and scanning resumes after it; an opening
bracket with no later closing bracket stays literal.  The fuel argument only
makes the recursion structural; the wrapper supplies fuel covering the whole
input, so the zero-fuel branch is never reached. -/
def stripTagsFuel : Nat → List Char → List Char
  | 0, l => l
  | _ + 1, [] => []
  | fuel + 1, c :: t =>
    if c == '<' then
      match t.dropWhile (fun d => d != '>') with
      | [] => c :: stripTagsFuel fuel t
      | _ :: rest => ' ' :: stripTagsFuel fuel rest
    else c :: stripTagsFuel fuel t

/-- Markup stripping step of createExcerpt. -/
def stripTags (l : List Char) : List Char := stripTagsFuel l.length l

/-- Fuel-indexed scanner embedding the global regex replacement of each
maximal whitespace run by a single space. -/
def collapseWsFuel : Nat → List Char → List Char
  | 0, l => l
  | _ + 1, [] => []
  | fuel + 1, c :: t =>
    if isWs c then ' ' :: collapseWsFuel fuel (t.dropWhile isWs)
    else c :: collapseWsFuel fuel t

/-- Whitespace collapsing step of createExcerpt. -/
def collapseWs (l : List Char) : List Char := collapseWsFuel l.length l

/-- Embedding of the JavaScript String.prototype.trim method. -/
def trimWs (l : List Char) : List Char :=
  ((l.dropWhile isWs).reverse.dropWhile isWs).reverse

/-- Cleaned text that createExcerpt works on: markup stripped, whitespace
collapsed, ends trimmed. -/
def textOnlyOf (text : List Char) : List Char := trimWs (collapseWs (stripTags text))

/-- Ellipsis marker appended or prepended by createExcerpt. -/
def ellipsis : List Char := strL ("...")

/-- Opening highlight marker used by highlightText. -/
def markOpen : List Char := strL ("<mark class=\"bg-yellow-200\">")

/-- Closing highlight marker used by highlightText. -/
def markClose : List Char := strL ("</mark>")

/-- Fuel-indexed embedding of highlightText: a global case-insensitive
replace of the query by the query wrapped in the mark element, with the
matched slice kept in its original casing; matching is leftmost and
non-overlapping, and scanning resumes after each matched slice, never inside
an inserted marker.  An empty query matches once at every position, as the
empty regular-expression group does.  The fuel argument only makes the
recursion structural; the wrapper supplies fuel covering the whole input. -/
def highlightTextFuel : Nat → List Char → List Char → List Char
  | 0, text, _ => text
  | fuel + 1, text, query =>
    if query.isEmpty then
      markOpen ++ markClose ++ (text.map (fun c => c :: (markOpen ++ markClose))).flatten
    else
      match firstIndexOf (toLowerL text) (toLowerL query) with
      | none => text
      | some i =>
        text.take i ++ markOpen ++ (text.drop i).take query.length ++ markClose
          ++ highlightTextFuel fuel (text.drop (i + query.length)) query

/-- Embedding of highlightText. -/
def highlightText (text query : List Char) : List Char :=
  highlightTextFuel (text.length + 1) text query

/-- Embedding of createExcerpt: strip markup, collapse whitespace, trim,
locate the first case-insensitive occurrence of the query, and either fall
back to the first len characters plus an ellipsis when the query does not
occur, or cut a window from 50 characters before the occurrence to 100 plus
the query length after it, clamped to the text, attach an ellipsis at each
truncated edge, and highlight the result.  Natural-number subtraction gives
the clamp at zero of the window start; the JavaScript variable named end is
renamed stop. -/
def createExcerpt (text query : List Char) (len : Nat) : List Char :=
  let textOnly := textOnlyOf text
  match firstIndexOf (toLowerL textOnly) (toLowerL query) with
  | none => textOnly.take len ++ ellipsis
  | some index =>
    let start := index - 50
    let stop := min textOnly.length (index + query.length + 100)
    let excerpt0 := (textOnly.drop start).take (stop - start)
    let excerpt1 := if 0 < start then ellipsis ++ excerpt0 else excerpt0
    let excerpt2 := if stop < textOnly.length then excerpt1 ++ ellipsis else excerpt1
    highlightText excerpt2 query

/-- Window description written from the words of claim C4: the window starts
50 characters before the first occurrence, clamped to the start of the text,
and ends 100 plus the query length after it, clamped to the end of the text;
an ellipsis is prepended exactly when the window does not start at position
zero and appended exactly when the window does not reach the end of the
text. -/
def excerptSpec (textOnly query : List Char) (i : Nat) : List Char :=
  let s := if 50 ≤ i then i - 50 else 0
  let e := min textOnly.length (i + query.length + 100)
  let window := (textOnly.drop s).take (e - s)
  (if s ≠ 0 then ellipsis else []) ++ window
    ++ (if e ≠ textOnly.length then ellipsis else [])

/-- C4: when the query occurs case-insensitively in the cleaned content, the
excerpt is the highlighted window described by the claim, with an ellipsis
at exactly the truncated edges; when it does not occur, the excerpt is the
first len characters plus an ellipsis. -/
theorem c4_excerpt_window (text query : List Char) (len : Nat) :
    (firstIndexOf (toLowerL (textOnlyOf text)) (toLowerL query) = none →
      createExcerpt text query len = (textOnlyOf text).take len ++ ellipsis)
    ∧ ∀ i, firstIndexOf (toLowerL (textOnlyOf text)) (toLowerL query) = some i →
        createExcerpt text query len =
          highlightText (excerptSpec (textOnlyOf text) query i) query := by
  constructor
  · intro h
    simp only [createExcerpt, h]
  · intro i h
    simp only [createExcerpt, h, excerptSpec]
    have hs : (if 50 ≤ i then i - 50 else 0) = i - 50 := by
      split <;> omega
    rw [hs]
    have he : min (textOnlyOf text).length (i + query.length + 100) ≤
        (textOnlyOf text).length := Nat.min_le_left _ _
    by_cases h1 : i - 50 = 0 <;>
      by_cases h2 : min (textOnlyOf text).length (i + query.length + 100) =
        (textOnlyOf text).length
    · simp [h1, h2]
    · have h2' : min (textOnlyOf text).length (i + query.length + 100) <
        (textOnlyOf text).length := lt_of_le_of_ne he h2
      simp [h1, h2, h2']
    · have h1' : 0 < i - 50 := Nat.pos_of_ne_zero h1
      simp [h1, h1', h2]
    · have h1' : 0 < i - 50 := Nat.pos_of_ne_zero h1
      have h2' : min (textOnlyOf text).length (i + query.length + 100) <
        (textOnlyOf text).length := lt_of_le_of_ne he h2
      simp [h1, h1', h2, h2', List.append_assoc]

/-- Concrete content used by the C4 witness. -/
def c4text : List Char := strL ("ab cd")

/-- Concrete query used by the C4 witness. -/
def c4query : List Char := strL ("cd")

theorem c4_witness :
    firstIndexOf (toLowerL (textOnlyOf c4text)) (toLowerL c4query) = some 3
    ∧ createExcerpt c4text c4query 150 =
        highlightText (excerptSpec (textOnlyOf c4text) c4query 3) c4query :=
  ⟨by decide, (c4_excerpt_window c4text c4query 150).2 3 (by decide)⟩

/-- C5: highlightText performs a case-insensitive global replace of the
query, wrapping the matched slice in the mark element with its original
casing preserved; on the title Water Resources Report with query water, the
slice Water is wrapped exactly once and the rest of the title is untouched. -/
theorem c5_highlight_water :
    highlightText (strL ("Water Resources Report")) (strL ("water")) =
      markOpen ++ strL ("Water") ++ markClose ++ strL (" Resources Report") := by
  decide

/-- State of the search page touched by the initializeSearch handlers: the
results container markup, the hidden flags of the no-results and
other-services sections, the q parameter of the page url, the pending
debounced search, the text of the search input, and a log of the
performSearch invocations issued so far, each carrying query text and
category.  Network requests are made only inside performSearch, so an
unchanged log means no search and no network call was issued. -/
structure UIState where
  resultsHTML : List Char
  noResultsHidden : Bool
  otherServicesHidden : Bool
  urlQ : Option (List Char)
  pendingSearch : Option (List Char × String)
  inputValue : List Char
  searchLog : List (List Char × String)
deriving DecidableEq, Repr

/-- Embedding of the input-event listener of initializeSearch: cancel any
pending debounce timer, trim the raw input, and either reset the result
area when the trimmed text is shorter than 2 characters, or hide the
other-services section, write the q parameter into the page url, and
schedule the debounced search with the current category filter.  The short
branch returns without touching the url. -/
def handleInput (st : UIState) (raw : List Char) (categoryFilter : String) :
    UIState :=
  let st := { st with pendingSearch := none }
  let query := trimWs raw
  if query.length < 2 then
    { st with
      resultsHTML := [],
      noResultsHidden := true,
      otherServicesHidden := false }
  else
    { st with
      otherServicesHidden := true,
      urlQ := some query,
      pendingSearch := some (query, categoryFilter) }

/-- Firing of the debounce timer: issue the pending search, when one is
scheduled. -/
def fireDebounce (st : UIState) : UIState :=
  match st.pendingSearch with
  | none => st
  | some qc => { st with pendingSearch := none, searchLog := st.searchLog ++ [qc] }

/-- Embedding of the initial-load path of initializeSearch: when the page
url carries a q parameter whose value is truthy (non-empty), the input is
prefilled and performSearch is invoked immediately with the default empty
category.  This path has no length guard. -/
def handleLoad (st : UIState) : UIState :=
  match st.urlQ with
  | none => st
  | some q =>
    if q.isEmpty then st
    else { st with inputValue := q, searchLog := st.searchLog ++ [(q, "")] }

/-- Fresh page state with a given q parameter in the url. -/
def initState (urlQ : Option (List Char)) : UIState :=
  { resultsHTML := [], noResultsHidden := true, otherServicesHidden := false,
    urlQ := urlQ, pendingSearch := none, inputValue := [], searchLog := [] }

/-- C6 counterexample: the claim asserts that no query shorter than 2
characters ever triggers a search, whether it arrives by keystroke or by
the q url parameter; but the load path only tests truthiness, so a page
loaded with the single-character parameter value a does issue a search. -/
theorem c6_counterexample :
    ¬ ((∀ (st : UIState) (raw : List Char) (cat : String),
          (trimWs raw).length < 2 →
          (handleInput st raw cat).searchLog = st.searchLog ∧
          (handleInput st raw cat).pendingSearch = none ∧
          (handleInput st raw cat).resultsHTML = [] ∧
          (handleInput st raw cat).noResultsHidden = true)
       ∧ (∀ (st : UIState) (q : List Char), st.urlQ = some q → q.length < 2 →
          (handleLoad st).searchLog = st.searchLog)) := by
  rintro ⟨-, h⟩
  have h1 := h (initState (some (strL ("a")))) (strL ("a")) rfl (by decide)
  exact absurd h1 (by decide)

/-- C6 amended: a keystroke whose trimmed text is shorter than 2 characters
resets the result area, schedules no search, and the debounce timer then
issues nothing; on initial load, however, there is no length guard: no
search is issued exactly when the q parameter is absent or empty, and any
non-empty value, even a single character, triggers an immediate search. -/
theorem c6_short_query_guard :
    (∀ (st : UIState) (raw : List Char) (cat : String),
      (trimWs raw).length < 2 →
      (handleInput st raw cat).searchLog = st.searchLog ∧
      (handleInput st raw cat).pendingSearch = none ∧
      (fireDebounce (handleInput st raw cat)).searchLog = st.searchLog ∧
      (handleInput st raw cat).resultsHTML = [] ∧
      (handleInput st raw cat).noResultsHidden = true ∧
      (handleInput st raw cat).otherServicesHidden = false)
    ∧ (∀ st : UIState, st.urlQ = none → handleLoad st = st)
    ∧ (∀ st : UIState, st.urlQ = some [] → handleLoad st = st)
    ∧ (∀ (st : UIState) (q : List Char), st.urlQ = some q → q ≠ [] →
        (handleLoad st).searchLog = st.searchLog ++ [(q, "")]) := by
  refine ⟨?_, ?_, ?_, ?_⟩
  · intro st raw cat h
    refine ⟨?_, ?_, ?_, ?_, ?_, ?_⟩ <;> simp [handleInput, fireDebounce, h]
  · intro st h
    simp [handleLoad, h]
  · intro st h
    simp [handleLoad, h]
  · intro st q hq hne
    simp [handleLoad, hq, List.isEmpty_iff, hne]

theorem c6_witness :
    (trimWs (strL ("a"))).length < 2 ∧
    ((handleInput (initState none) (strL ("a")) ("")).searchLog =
        (initState none).searchLog ∧
      (handleInput (initState none) (strL ("a")) ("")).pendingSearch = none ∧
      (fireDebounce (handleInput (initState none) (strL ("a")) (""))).searchLog =
        (initState none).searchLog ∧
      (handleInput (initState none) (strL ("a")) ("")).resultsHTML = [] ∧
      (handleInput (initState none) (strL ("a")) ("")).noResultsHidden = true ∧
      (handleInput (initState none) (strL ("a")) ("")).otherServicesHidden = false) :=
  ⟨by decide,
    c6_short_query_guard.1 (initState none) (strL ("a")) ("") (by decide)⟩

/-- C7 counterexample: the claim asserts that the q parameter is removed
from the url when the input drops below 2 characters; but the short branch
of the input handler returns without touching the url, so a previously
written parameter persists after the input is cleared. -/
theorem c7_counterexample :
    ¬ ((∀ (st : UIState) (raw : List Char) (cat : String),
          2 ≤ (trimWs raw).length →
          (handleInput st raw cat).urlQ = some (trimWs raw))
       ∧ (∀ (st : UIState) (raw : List Char) (cat : String),
          (trimWs raw).length < 2 →
          (handleInput st raw cat).urlQ = none)) := by
  rintro ⟨-, h⟩
  have h1 := h (initState (some (strL ("ab")))) [] ("") (by decide)
  exact absurd h1 (by decide)

/-- C7 amended: every committed keystroke search (trimmed length at least 2)
writes its query text into the q url parameter, but clearing the input does
not remove the parameter: on a trimmed input shorter than 2 characters the
url is left untouched, so the last committed value persists. -/
theorem c7_url_param_sync :
    (∀ (st : UIState) (raw : List Char) (cat : String),
      2 ≤ (trimWs raw).length →
      (handleInput st raw cat).urlQ = some (trimWs raw))
    ∧ (∀ (st : UIState) (raw : List Char) (cat : String),
      (trimWs raw).length < 2 →
      (handleInput st raw cat).urlQ = st.urlQ) := by
  constructor
  · intro st raw cat h
    have h' : ¬ (trimWs raw).length < 2 := by omega
    simp [handleInput, h']
  · intro st raw cat h
    simp [handleInput, h]

theorem c7_witness :
    2 ≤ (trimWs (strL ("ab"))).length ∧
    (handleInput (initState none) (strL ("ab")) ("")).urlQ =
      some (trimWs (strL ("ab"))) :=
  ⟨by decide, c7_url_param_sync.1 (initState none) (strL ("ab")) ("") (by decide)⟩

/-- Result object of the static engine, with the optional metadata fields
read by searchPagefind. -/
structure PagefindData where
  metaTitle : Option (List Char)
  metaCategory : Option String
  url : String
  content : Option (List Char)
  excerpt : Option (List Char)
deriving DecidableEq, Repr

/-- JavaScript or-with-default on an optional string field: the default
applies when the field is missing or empty, both being falsy. -/
def jsOrL (o : Option (List Char)) (d : List Char) : List Char :=
  match o with
  | none => d
  | some s => if s.isEmpty then d else s

/-- JavaScript or-with-default for a plain string-valued optional field. -/
def jsOrS (o : Option String) (d : String) : String :=
  match o with
  | none => d
  | some s => if s.isEmpty then d else s

/-- Normalization of one static-engine hit into the common record shape, as
in the body of searchPagefind: title defaults to Untitled, category to
Information, content falls back to the excerpt and then to the empty
string. -/
def normalizeHit (d : PagefindData) : SearchRecord :=
  { title := jsOrL d.metaTitle (strL ("Untitled"))
  , url := d.url
  , content := jsOrL d.content (jsOrL d.excerpt [])
  , type := "page"
  , category := some (jsOrS d.metaCategory ("Information"))
  , excerpt := some (jsOrL d.excerpt []) }

/-- Embedding of searchPagefind: the engine handle is optional (the dynamic
module load may not have produced one), a loaded flag gates querying, and the
engine call either returns a batch of hits or fails; the failure branch is
the try-catch of the source, which converts any error into the empty
list. -/
def searchPagefind
    (pagefind : Option (List Char → Except String (List PagefindData)))
    (pagefindLoaded : Bool) (query : List Char) : List SearchRecord :=
  match pagefind with
  | none => []
  | some engine =>
    if !pagefindLoaded then []
    else
      match engine query with
      | Except.error _ => []
      | Except.ok hits => hits.map normalizeHit

/-- C8: the static-index adapter never propagates a failure: with no engine,
with the loaded flag unset, or when the engine errors, the result is the
empty list, and on success it is the normalized hit list, so the merge step
always receives a plain, possibly empty, list of records. -/
theorem c8_pagefind_no_propagation
    (pagefind : Option (List Char → Except String (List PagefindData)))
    (pagefindLoaded : Bool) (query : List Char) :
    (pagefind = none → searchPagefind pagefind pagefindLoaded query = [])
    ∧ (pagefindLoaded = false → searchPagefind pagefind pagefindLoaded query = [])
    ∧ (∀ engine e, pagefind = some engine → engine query = Except.error e →
        searchPagefind pagefind pagefindLoaded query = [])
    ∧ (∀ engine hits, pagefind = some engine → pagefindLoaded = true →
        engine query = Except.ok hits →
        searchPagefind pagefind pagefindLoaded query = hits.map normalizeHit) := by
  refine ⟨?_, ?_, ?_, ?_⟩
  · rintro rfl
    rfl
  · rintro rfl
    cases pagefind <;> simp [searchPagefind]
  · rintro engine e rfl he
    cases pagefindLoaded <;> simp [searchPagefind, he]
  · rintro engine hits rfl rfl he
    simp [searchPagefind, he]

/-- Engine that always fails, used by the C8 witness. -/
def failingEngine : List Char → Except String (List PagefindData) :=
  fun _ => Except.error ("network failure")

theorem c8_witness :
    failingEngine (strL ("jane")) = Except.error ("network failure") ∧
    searchPagefind (some failingEngine) true (strL ("jane")) = [] :=
  ⟨rfl, (c8_pagefind_no_propagation (some failingEngine) true
      (strL ("jane"))).2.2.1 failingEngine ("network failure") rfl rfl⟩

/-- Category label under which performSearch groups a record: a missing or
empty category, both falsy, falls back to the label Other. -/
def catKey (r : SearchRecord) : String :=
  match r.category with
  | none => "Other"
  | some c => if c = "" then "Other" else c

/-- One step of the grouping reduce of performSearch: append the record to
the entry of its key, or open a new entry at the end when the key is new. -/
def addToGroup (acc : List (String × List SearchRecord)) (k : String)
    (r : SearchRecord) : List (String × List SearchRecord) :=
  match acc with
  | [] => [(k, [r])]
  | (k1, rs) :: t =>
    if k1 = k then (k1, rs ++ [r]) :: t
    else (k1, rs) :: addToGroup t k r

/-- Grouping reduce of performSearch over the filtered result list, with
insertion-ordered keys as in a JavaScript object literal. -/
def groupByCategory (results : List SearchRecord) :
    List (String × List SearchRecord) :=
  results.foldl (fun acc r => addToGroup acc (catKey r) r) []

/-- Reading the entry list of a key in the grouped structure (the property
read of the JavaScript object, first entry winning). -/
def lookupG : List (String × List SearchRecord) → String → List SearchRecord
  | [], _ => []
  | (k1, rs) :: t, k => if k1 = k then rs else lookupG t k

theorem lookupG_addToGroup (acc : List (String × List SearchRecord))
    (k : String) (r : SearchRecord) (k' : String) :
    lookupG (addToGroup acc k r) k' =
      if k' = k then lookupG acc k' ++ [r] else lookupG acc k' := by
  induction acc with
  | nil =>
    by_cases h : k' = k
    · subst h
      simp [addToGroup, lookupG]
    · simp [addToGroup, lookupG, h, Ne.symm h]
  | cons hd t ih =>
    obtain ⟨k1, rs⟩ := hd
    by_cases h1 : k1 = k
    · subst h1
      by_cases h2 : k1 = k'
      · subst h2
        simp [addToGroup, lookupG]
      · simp [addToGroup, lookupG, h2, Ne.symm h2]
    · by_cases h2 : k1 = k'
      · subst h2
        have hne : ¬ k1 = k := h1
        simp [addToGroup, lookupG, h1, Ne.symm h1]
      · simp [addToGroup, lookupG, h1, h2, ih]

theorem lookupG_groupBy_aux (results : List SearchRecord)
    (acc : List (String × List SearchRecord)) (k : String) :
    lookupG (results.foldl (fun acc r => addToGroup acc (catKey r) r) acc) k =
      lookupG acc k ++ results.filter (fun r => catKey r == k) := by
  induction results generalizing acc with
  | nil => simp
  | cons r t ih =>
    rw [List.foldl_cons, ih, lookupG_addToGroup]
    by_cases h : k = catKey r
    · have hb : (catKey r == k) = true := by simp [h]
      simp [List.filter_cons, hb, h]
    · have hb : (catKey r == k) = false := by simp [Ne.symm h]
      simp [List.filter_cons, hb, h]

theorem keys_addToGroup (acc : List (String × List SearchRecord)) (k : String)
    (r : SearchRecord) :
    (addToGroup acc k r).map Prod.fst =
      if k ∈ acc.map Prod.fst then acc.map Prod.fst
      else acc.map Prod.fst ++ [k] := by
  induction acc with
  | nil => simp [addToGroup]
  | cons hd t ih =>
    obtain ⟨k1, rs⟩ := hd
    by_cases h1 : k1 = k
    · subst h1
      simp [addToGroup]
    · simp only [addToGroup, h1, if_false, List.map_cons, List.mem_cons, ih]
      by_cases h2 : k ∈ t.map Prod.fst <;>
        simp [h2, Ne.symm h1]

theorem catKey_ne_empty (r : SearchRecord) : catKey r ≠ "" := by
  rw [catKey]
  cases r.category with
  | none => simp
  | some c =>
    by_cases h : c = "" <;> simp [h]

theorem keys_groupBy_aux (results : List SearchRecord)
    (acc : List (String × List SearchRecord))
    (hne : ∀ p ∈ acc, p.1 ≠ "") (hnd : (acc.map Prod.fst).Nodup) :
    (∀ p ∈ results.foldl (fun acc r => addToGroup acc (catKey r) r) acc,
      p.1 ≠ "")
    ∧ ((results.foldl (fun acc r => addToGroup acc (catKey r) r) acc).map
        Prod.fst).Nodup := by
  induction results generalizing acc with
  | nil => exact ⟨hne, hnd⟩
  | cons r t ih =>
    rw [List.foldl_cons]
    apply ih
    · intro p hp
      have hk : p.1 ∈ (addToGroup acc (catKey r) r).map Prod.fst :=
        List.mem_map_of_mem Prod.fst hp
      rw [keys_addToGroup] at hk
      by_cases hmem : catKey r ∈ acc.map Prod.fst
      · rw [if_pos hmem] at hk
        rcases List.mem_map.mp hk with ⟨q, hq, hq1⟩
        exact hq1 ▸ hne q hq
      · rw [if_neg hmem] at hk
        rcases List.mem_append.mp hk with h | h
        · rcases List.mem_map.mp h with ⟨q, hq, hq1⟩
          exact hq1 ▸ hne q hq
        · have : p.1 = catKey r := by simpa using h
          exact this ▸ catKey_ne_empty r
    · rw [keys_addToGroup]
      by_cases hmem : catKey r ∈ acc.map Prod.fst
      · rw [if_pos hmem]
        exact hnd
      · rw [if_neg hmem]
        simp [List.nodup_append, hnd, hmem]

/-- C10: grouping assigns every record whose category is missing or empty to
the group labeled Other; a record belongs to the group of its category key
and to no other, the group keys are pairwise distinct (so every record
appears in exactly one group), and no group key is empty. -/
theorem c10_grouping_other (results : List SearchRecord) :
    (∀ r ∈ results, (r.category = none ∨ r.category = some "") →
      r ∈ lookupG (groupByCategory results) "Other")
    ∧ (∀ (r : SearchRecord) (k : String),
        r ∈ lookupG (groupByCategory results) k ↔
          (r ∈ results ∧ catKey r = k))
    ∧ ((groupByCategory results).map Prod.fst).Nodup
    ∧ (∀ k ∈ (groupByCategory results).map Prod.fst, k ≠ "") := by
  have hchar : ∀ k, lookupG (groupByCategory results) k =
      results.filter (fun r => catKey r == k) := by
    intro k
    rw [groupByCategory, lookupG_groupBy_aux]
    rfl
  have hkeys := keys_groupBy_aux results [] (by simp) (by simp)
  refine ⟨?_, ?_, hkeys.2, ?_⟩
  · intro r hr hcat
    rw [hchar, List.mem_filter]
    refine ⟨hr, ?_⟩
    rcases hcat with h | h <;> simp [catKey, h]
  · intro r k
    rw [hchar, List.mem_filter]
    simp
  · intro k hk
    rcases List.mem_map.mp hk with ⟨p, hp, hp1⟩
    exact hp1 ▸ hkeys.1 p hp

/-- Record without a category, used by the C10 witness. -/
def recNoCat : SearchRecord :=
  { title := strL ("Misc"), url := "/misc", content := strL ("misc text"),
    type := "page", category := none, excerpt := none }

theorem c10_witness :
    recNoCat ∈ ([recNoCat] : List SearchRecord) ∧
    (recNoCat.category = none ∨ recNoCat.category = some "") ∧
    recNoCat ∈ lookupG (groupByCategory [recNoCat]) ("Other") :=
  ⟨by decide, Or.inl rfl,
    (c10_grouping_other [recNoCat]).1 recNoCat (by decide) (Or.inl rfl)⟩

end KgsSearch
